import Mathlib

/-!
Verification of the simple-repository-server core components.

The Python sources are shallowly embedded: strings are `List Char`, fallible
functions return `Except`, request/response handling is explicit data flow.
Each definition is translated from the corresponding function in
`simple_repository_server` (see the doc comments); standard-library behaviour
that the code relies on (`urllib.parse.urlsplit`/`urljoin`, `hashlib.sha256`,
`packaging.utils.canonicalize_name`) is modelled from its specification.
-/

/-- Strings are modelled as lists of characters. -/
abbrev Chars := List Char

/-- Coerce a Lean string literal to the `List Char` representation. -/
def strOf (s : String) : Chars := s.data

/-- Result of URL parsing: the named fields of `urllib.parse.urlsplit`
(`params` is never produced because all paths considered are `;`-free). -/
structure UrlParts where
  scheme : Chars
  netloc : Chars
  path : Chars
  query : Chars
  fragment : Chars
deriving Repr, DecidableEq

/-- Split a list at the first occurrence of `c`; `none` when `c` is absent. -/
def splitFirstOn (c : Char) : Chars → Option (Chars × Chars)
  | [] => none
  | x :: xs =>
    if x = c then some ([], xs)
    else (splitFirstOn c xs).map (fun p => (x :: p.1, p.2))

/-- Characters allowed in a URL scheme (`urllib.parse.scheme_chars`). -/
def schemeChar (c : Char) : Bool :=
  c.isAlpha || c.isDigit || c == '+' || c == '-' || c == '.'

/-- Modelled from the spec: the scheme-splitting step of
`urllib.parse.urlsplit` — the text before the first `:` becomes the
(lowercased) scheme when it is nonempty, starts with an ASCII letter and
consists of scheme characters; otherwise the URL is left untouched. -/
def splitScheme (url : Chars) : Chars × Chars :=
  match splitFirstOn ':' url with
  | some (bef, aft) =>
    if (match bef with
        | c :: _ => c.isAlpha && c.toNat < 128
        | [] => false) && bef.all schemeChar
    then (bef.map Char.toLower, aft)
    else ([], url)
  | none => ([], url)

/-- A character that terminates the netloc scan of `urlsplit`. -/
def netlocStop (c : Char) : Bool := c == '/' || c == '?' || c == '#'

/-- Modelled from the spec: the netloc-splitting step of
`urllib.parse.urlsplit` — after a leading `//`, the netloc extends up to the
first `/`, `?` or `#`. -/
def splitNetloc (url : Chars) : Chars × Chars :=
  match url with
  | c₁ :: c₂ :: rest =>
    if c₁ = '/' ∧ c₂ = '/' then
      (rest.takeWhile (fun c => !netlocStop c), rest.dropWhile (fun c => !netlocStop c))
    else ([], url)
  | _ => ([], url)

/-- Modelled from the spec: `urllib.parse.urlsplit` for URLs free of
whitespace and of `;` path parameters — scheme, then `//netloc`, then the
path with optional `#fragment` and `?query` parts split off. -/
def urlparse (url : Chars) : UrlParts :=
  let s := splitScheme url
  let n := splitNetloc s.2
  let f := match splitFirstOn '#' n.2 with
    | some p => (p.1, p.2)
    | none => (n.2, [])
  let q := match splitFirstOn '?' f.1 with
    | some p => (p.1, p.2)
    | none => (f.1, [])
  ⟨s.1, n.1, q.1, q.2, f.2⟩

/-- The token lists compared by `url_as_relative`:
`path.split("/")[1:-1]` — all the segments of the path that are enclosed
between two `/` (drops the leading empty segment and the final segment). -/
def pathTokens (p : Chars) : List Chars :=
  ((List.splitOn '/' p).drop 1).dropLast

/-- The common leading run of equal tokens: mirrors the
`for ... in zip(...): if equal ... else break` loop of `url_as_relative`
(the zip stops at the shorter list, the loop breaks at the first mismatch). -/
def matchedTokens : List Chars → List Chars → List Chars
  | d :: ds, o :: os => if d = o then d :: matchedTokens ds os else []
  | _, _ => []

/-- Python's `str.removeprefix`: drop `pre` from the front when it is
a prefix, otherwise return the string unchanged. -/
def removePre (s pre : Chars) : Chars :=
  if pre.isPrefixOf s then s.drop pre.length else s

/-- The path-level computation of `utils.url_as_relative` (everything after
the scheme/netloc validation): `dirs_up` starts at the number of origin
tokens and is decremented once per matched token, `common_prefix` starts at
`"/"` and accumulates every matched token followed by `/`. -/
def relativizePath (destPath originPath : Chars) : Chars :=
  let dTok := pathTokens destPath
  let oTok := pathTokens originPath
  let matched := matchedTokens dTok oTok
  let dirsUp := oTok.length - matched.length
  let commonPfx := '/' :: (matched.map (fun t => t ++ ['/'])).flatten
  (List.replicate dirsUp (strOf "../")).flatten ++ removePre destPath commonPfx

instance {ε α : Type} [DecidableEq ε] [DecidableEq α] :
    DecidableEq (Except ε α) := fun a b =>
  match a, b with
  | .ok x, .ok y =>
    if h : x = y then .isTrue (by rw [h]) else .isFalse (by simp [h])
  | .error x, .error y =>
    if h : x = y then .isTrue (by rw [h]) else .isFalse (by simp [h])
  | .ok _, .error _ => .isFalse (by simp)
  | .error _, .ok _ => .isFalse (by simp)

/-- `utils.url_as_relative`: parse both URLs; fail unless they share the
scheme, the scheme is `http` or `https`, and they share the netloc; otherwise
relativize the destination path against the origin path. -/
def url_as_relative (destination_absolute_url origin_absolute_url : Chars) :
    Except Chars Chars :=
  let d := urlparse destination_absolute_url
  let o := urlparse origin_absolute_url
  if o.scheme ≠ d.scheme ∨
      ¬(o.scheme = strOf "http" ∨ o.scheme = strOf "https") ∨
      o.netloc ≠ d.netloc then
    .error (strOf "Cannot create a relative url from " ++ origin_absolute_url
      ++ strOf " to " ++ destination_absolute_url)
  else
    .ok (relativizePath d.path o.path)

/-- An absolute URL assembled from its components: `scheme://netloc` followed
by the path and, when one is present, `?query`. -/
def mkUrl (scheme netloc path query : Chars) : Chars :=
  scheme ++ ':' :: '/' :: '/' ::
    (netloc ++ (path ++ (if query = [] then [] else '?' :: query)))

/-- The longest-common-prefix length of two token lists (spec §4.3 step 2:
"the length of the matching prefix is k"). -/
def commonPrefixLen : List Chars → List Chars → Nat
  | d :: ds, o :: os => if d = o then commonPrefixLen ds os + 1 else 0
  | _, _ => 0

/-- Modelled from the spec (§4.3, steps 1–4): split each path on `/`, drop
the leading empty segment and the final segment; `k` = length of the common
segment prefix; the result is `(origin segments − k)` copies of `../`
followed by the destination's full path with the matched prefix
(reconstructed literally, trailing slash included) removed from the front. -/
def specRelativize (destPath originPath : Chars) : Chars :=
  let dTok := pathTokens destPath
  let oTok := pathTokens originPath
  let k := commonPrefixLen dTok oTok
  let pfx := '/' :: ((dTok.take k).map (fun t => t ++ ['/'])).flatten
  (List.replicate (oTok.length - k) (strOf "../")).flatten ++ removePre destPath pfx

/-- Python's `'/'.join`. -/
def joinSlash : List Chars → Chars
  | [] => []
  | [a] => a
  | a :: rest => a ++ '/' :: joinSlash rest

/-- An absolute path assembled from its interior segments and final
segment: `/s1/s2/.../sn/last` (`last = ""` gives a trailing slash). -/
def pathOf (segs : List Chars) (lastSeg : Chars) : Chars :=
  '/' :: joinSlash (segs ++ [lastSeg])

/-- One step of the segment-resolution loop of `urllib.parse.urljoin`:
`..` pops the last resolved segment (underflow ignored), `.` is skipped,
anything else is appended. -/
def resolveStep (acc : List Chars) (seg : Chars) : List Chars :=
  if seg = strOf ".." then acc.dropLast
  else if seg = strOf "." then acc
  else acc ++ [seg]

/-- The segment-resolution loop of `urllib.parse.urljoin`. -/
def resolveSegs (segments : List Chars) : List Chars :=
  segments.foldl resolveStep []

/-- Filter that drops empty segments but always keeps the final element
(the tail part of `segments[1:-1] = filter(None, segments[1:-1])`). -/
def keepLastFilter : List Chars → List Chars
  | [] => []
  | [a] => [a]
  | a :: rest => if a = [] then keepLastFilter rest else a :: keepLastFilter rest

/-- `segments[1:-1] = filter(None, segments[1:-1])`: keep the first and last
segments, drop empty interior segments. -/
def filterInterior : List Chars → List Chars
  | [] => []
  | a :: rest => a :: keepLastFilter rest

/-- Modelled from the spec: the path computation of `urllib.parse.urljoin`
for a nonempty reference that is a pure path — drop the base path's final
segment unless it is empty, prepend the base segments unless the reference
is absolute (filtering redundant empty segments), run the `..`/`.`
resolution loop, re-add a trailing slash when the last segment was a dot
segment, and fall back to `/` when the result is empty. -/
def urljoinSegments (bpath rel : Chars) : List Chars :=
  let bparts := List.splitOn '/' bpath
  let bparts' := if bparts.getLast? = some [] then bparts else bparts.dropLast
  if rel.head? = some '/' then List.splitOn '/' rel
  else filterInterior (bparts' ++ List.splitOn '/' rel)

/-- The `..`/`.` resolution of the assembled segments, with the trailing
slash re-added when the reference's last segment was a dot segment, and the
`'/'.join(resolved_path) or '/'` fallback. -/
def resolvePath (bpath rel : Chars) : Chars :=
  if rel = [] then bpath
  else
    let segments := urljoinSegments bpath rel
    let resolved := resolveSegs segments
    let resolved' :=
      if segments.getLast? = some (strOf ".") ∨ segments.getLast? = some (strOf "..")
      then resolved ++ [[]] else resolved
    if joinSlash resolved' = [] then ['/'] else joinSlash resolved'

/-- Modelled from the spec: `urllib.parse.urljoin`, specialised to a base
that is an absolute http(s) URL and a reference that is a pure relative
path (no scheme, netloc, query or fragment; in particular its first segment
contains no colon). An empty reference returns the base unchanged. -/
def urljoin (base rel : Chars) : Chars :=
  let b := urlparse base
  mkUrl b.scheme b.netloc (resolvePath b.path rel) b.query

/-- A segment of an ordinary URL path: free of the `/?#` delimiters and not
a dot segment. -/
def plainSeg (s : Chars) : Prop :=
  (∀ c ∈ s, c ≠ '/' ∧ c ≠ '?' ∧ c ≠ '#') ∧ s ≠ strOf "." ∧ s ≠ strOf ".."

instance (s : Chars) : Decidable (plainSeg s) := by
  unfold plainSeg
  infer_instance

/-- An input to `url_as_relative`: either an absolute URL given by its
components, or a relative reference (a bare path such as `../tensorflow`). -/
inductive UrlInput where
  | abs (scheme netloc path : Chars)
  | rel (path : Chars)

/-- The input as the actual string handed to `url_as_relative`. -/
def UrlInput.render : UrlInput → Chars
  | .abs scheme netloc path => mkUrl scheme netloc path []
  | .rel path => path

/-- Well-formedness of an input: an absolute URL has an http(s) scheme, a
delimiter-free netloc and a `/`-led (or empty) `?#`-free path; a relative
reference contains no colon. -/
def UrlInput.wf : UrlInput → Prop
  | .abs scheme netloc path =>
    (scheme = strOf "http" ∨ scheme = strOf "https") ∧
    (∀ c ∈ netloc, ¬netlocStop c) ∧
    (path = [] ∨ path.head? = some '/') ∧ (∀ c ∈ path, c ≠ '?' ∧ c ≠ '#')
  | .rel path => ':' ∉ path

instance : (u : UrlInput) → Decidable u.wf
  | .abs scheme netloc path =>
    inferInstanceAs (Decidable ((scheme = strOf "http" ∨ scheme = strOf "https") ∧
      (∀ c ∈ netloc, ¬netlocStop c) ∧
      (path = [] ∨ path.head? = some '/') ∧ (∀ c ∈ path, c ≠ '?' ∧ c ≠ '#')))
  | .rel path => inferInstanceAs (Decidable (':' ∉ path))

/-- Both inputs are absolute and share scheme and network location. -/
def sameOriginAbs : UrlInput → UrlInput → Prop
  | .abs s₁ n₁ _, .abs s₂ n₂ _ => s₁ = s₂ ∧ n₁ = n₂
  | _, _ => False

instance : (o d : UrlInput) → Decidable (sameOriginAbs o d)
  | .abs s₁ n₁ _, .abs s₂ n₂ _ =>
    inferInstanceAs (Decidable (s₁ = s₂ ∧ n₁ = n₂))
  | .abs _ _ _, .rel _ => inferInstanceAs (Decidable False)
  | .rel _, .abs _ _ _ => inferInstanceAs (Decidable False)
  | .rel _, .rel _ => inferInstanceAs (Decidable False)

/-- A character collapsed by name canonicalization (`[-_.]`). -/
def normChar (c : Char) : Bool := c == '-' || c == '_' || c == '.'

/-- Modelled from the spec: the run-collapsing pass of
`packaging.utils.canonicalize_name` (`re.sub(r"[-_.]+", "-", name)`),
written with a flag recording whether the previous character belonged to a
run: each maximal run of `-`/`_`/`.` becomes a single `-`. -/
def collapseAux (prevNorm : Bool) : Chars → Chars
  | [] => []
  | c :: rest =>
    if normChar c then
      if prevNorm then collapseAux true rest
      else '-' :: collapseAux true rest
    else c :: collapseAux false rest

/-- Modelled from the spec: `packaging.utils.canonicalize_name` — collapse
every run of `-`, `_`, `.` to a single `-`, then lowercase. -/
def canonicalize_name (name : Chars) : Chars :=
  (collapseAux false name).map Char.toLower

/-- Outcome of the canonical-name guard of the project-detail endpoint:
either a redirect response, or proceeding to the backend lookup. -/
inductive ProjectPageOutcome where
  | redirect (status : Nat) (location : Chars)
  | lookup (name : Chars)
deriving Repr, DecidableEq

/-- The canonical-name guard at the top of `simple_project_page`
(`routers/simple.py`): when the supplied name is not canonical, relativize
the canonical page URL (built by `url_for` from the route path, no query)
against the request URL (route path plus any query), append the original
query string when present, and answer 301; otherwise proceed to the
lookup. `routePfx` is the route prefix, e.g. `/simple/`. -/
def simple_project_page_guard (scheme netloc routePfx name query : Chars) :
    Except Chars ProjectPageOutcome :=
  let normed_prj_name := canonicalize_name name
  if normed_prj_name ≠ name then
    match url_as_relative
        (mkUrl scheme netloc (routePfx ++ (normed_prj_name ++ ['/'])) [])
        (mkUrl scheme netloc (routePfx ++ (name ++ ['/'])) query) with
    | .error e => .error e
    | .ok correct_url =>
      .ok (.redirect 301
        (correct_url ++ (if query = [] then [] else '?' :: query)))
  else
    .ok (.lookup name)

/-- `HttpResponseIterator.PROXIED_REQUEST_HEADERS`
(`_http_response_iterator.py`). -/
def PROXIED_REQUEST_HEADERS : List Chars :=
  [strOf "accept", strOf "user-agent", strOf "accept-encoding",
    strOf "if-unmodified-since", strOf "if-range", strOf "if-none-match",
    strOf "if-modified-since", strOf "if-match", strOf "range",
    strOf "referer"]

/-- Python's `str.lower`. -/
def toLowerStr (s : Chars) : Chars := s.map Char.toLower

/-- The `RequestContext` construction in the `resources` endpoint
(`routers/simple.py`): `model.RequestContext(context=dict(request.headers.items()))`
— the inbound headers are passed through unchanged (headers carry one entry
per name). -/
def requestContextHeaders (headers : List (Chars × Chars)) :
    List (Chars × Chars) :=
  headers

/-- The header filter of `HttpResponseIterator.create_iterator`: keep
exactly the request headers whose lowercased name is in
`PROXIED_REQUEST_HEADERS`; only these cross to the upstream request. -/
def proxiedHeaders (request_headers : List (Chars × Chars)) :
    List (Chars × Chars) :=
  request_headers.filter
    (fun h => decide (toLowerStr h.1 ∈ PROXIED_REQUEST_HEADERS))

/-- UTF-8 encoding of one code point. -/
def utf8EncodeChar (c : Char) : List Nat :=
  let n := c.toNat
  if n < 128 then [n]
  else if n < 2048 then
    [192 ||| (n >>> 6), 128 ||| (n &&& 63)]
  else if n < 65536 then
    [224 ||| (n >>> 12), 128 ||| ((n >>> 6) &&& 63), 128 ||| (n &&& 63)]
  else
    [240 ||| (n >>> 18), 128 ||| ((n >>> 12) &&& 63),
      128 ||| ((n >>> 6) &&& 63), 128 ||| (n &&& 63)]

/-- Python's `str.encode('UTF-8')`: the byte sequence of the text. -/
def utf8Bytes (s : Chars) : List Nat := (s.map utf8EncodeChar).flatten

/-- Truncation to a 32-bit word. -/
def w32 (n : Nat) : Nat := n % 4294967296

/-- 32-bit right rotation. -/
def rotr32 (n x : Nat) : Nat := w32 ((x >>> n) ||| (x <<< (32 - n)))

/-- The 64 SHA-256 round constants (FIPS 180-4). -/
def sha256K : List Nat :=
  [1116352408, 1899447441, 3049323471,
    3921009573, 961987163, 1508970993,
    2453635748, 2870763221, 3624381080,
    310598401, 607225278, 1426881987,
    1925078388, 2162078206, 2614888103,
    3248222580, 3835390401, 4022224774,
    264347078, 604807628, 770255983,
    1249150122, 1555081692, 1996064986,
    2554220882, 2821834349, 2952996808,
    3210313671, 3336571891, 3584528711,
    113926993, 338241895, 666307205,
    773529912, 1294757372, 1396182291,
    1695183700, 1986661051, 2177026350,
    2456956037, 2730485921, 2820302411,
    3259730800, 3345764771, 3516065817,
    3600352804, 4094571909, 275423344,
    430227734, 506948616, 659060556,
    883997877, 958139571, 1322822218,
    1537002063, 1747873779, 1955562222,
    2024104815, 2227730452, 2361852424,
    2428436474, 2756734187, 3204031479,
    3329325298]

/-- The SHA-256 initial hash value (FIPS 180-4). -/
def sha256H0 : List Nat :=
  [1779033703, 3144134277, 1013904242,
    2773480762, 1359893119, 2600822924,
    528734635, 1541459225]

/-- Big-endian byte decomposition of `n` into `k` bytes. -/
def toBytesBE : Nat → Nat → List Nat
  | 0, _ => []
  | k + 1, n => toBytesBE k (n >>> 8) ++ [n &&& 255]

/-- SHA-256 message padding: `0x80`, zeros to 56 mod 64, then the bit
length as 8 big-endian bytes. -/
def sha256Pad (msg : List Nat) : List Nat :=
  msg ++ [128] ++ List.replicate ((119 - msg.length % 64) % 64) 0
    ++ toBytesBE 8 (msg.length * 8)

/-- Big-endian 32-bit words from bytes. -/
def bytesToWordsBE : List Nat → List Nat
  | b0 :: b1 :: b2 :: b3 :: rest =>
    ((((b0 <<< 8) ||| b1) <<< 8 ||| b2) <<< 8 ||| b3) :: bytesToWordsBE rest
  | _ => []

/-- Split a word list into 16-word blocks (`fuel` bounds the recursion). -/
def chunks16 : Nat → List Nat → List (List Nat)
  | 0, _ => []
  | fuel + 1, ws =>
    if ws = [] then [] else ws.take 16 :: chunks16 fuel (ws.drop 16)

/-- σ0 (FIPS 180-4). -/
def smallSigma0 (x : Nat) : Nat := rotr32 7 x ^^^ rotr32 18 x ^^^ (x >>> 3)

/-- σ1 (FIPS 180-4). -/
def smallSigma1 (x : Nat) : Nat := rotr32 17 x ^^^ rotr32 19 x ^^^ (x >>> 10)

/-- Σ0 (FIPS 180-4). -/
def bigSigma0 (x : Nat) : Nat := rotr32 2 x ^^^ rotr32 13 x ^^^ rotr32 22 x

/-- Σ1 (FIPS 180-4). -/
def bigSigma1 (x : Nat) : Nat := rotr32 6 x ^^^ rotr32 11 x ^^^ rotr32 25 x

/-- Extend the 16 block words to the 64-entry message schedule. -/
def extendSchedule : Nat → List Nat → List Nat
  | 0, w => w
  | k + 1, w =>
    let i := w.length
    extendSchedule k (w ++ [w32 (smallSigma1 (w.getD (i - 2) 0) + w.getD (i - 7) 0
      + smallSigma0 (w.getD (i - 15) 0) + w.getD (i - 16) 0)])

/-- One SHA-256 compression round on the eight-word working state. -/
def compressStep (st : List Nat) (kw : Nat × Nat) : List Nat :=
  match st with
  | [a, b, c, d, e, f, g, h] =>
    let ch := (e &&& f) ^^^ ((e ^^^ 4294967295) &&& g)
    let maj := (a &&& b) ^^^ (a &&& c) ^^^ (b &&& c)
    let t1 := w32 (h + bigSigma1 e + ch + kw.1 + kw.2)
    let t2 := w32 (bigSigma0 a + maj)
    [w32 (t1 + t2), a, b, c, w32 (d + t1), e, f, g]
  | _ => st

/-- Process one 16-word block (FIPS 180-4 §6.2.2). -/
def processBlock (h : List Nat) (block : List Nat) : List Nat :=
  let w := extendSchedule 48 block
  let st := (sha256K.zip w).foldl compressStep h
  (h.zip st).map (fun p => w32 (p.1 + p.2))

/-- Modelled from the spec: `hashlib.sha256(...).digest()` — the SHA-256
digest (FIPS 180-4) of a byte string, as 32 bytes. -/
def sha256 (msg : List Nat) : List Nat :=
  let padded := sha256Pad msg
  let ws := bytesToWordsBE padded
  let blocks := chunks16 ws.length ws
  let hf := blocks.foldl processBlock sha256H0
  (hf.map (toBytesBE 4)).flatten

/-- A lowercase hexadecimal digit. -/
def hexDigit (n : Nat) : Char :=
  if n < 10 then Char.ofNat (48 + n) else Char.ofNat (87 + n)

/-- Lowercase hex string of a byte string. -/
def hexOfBytes (bs : List Nat) : Chars :=
  (bs.map (fun b => [hexDigit (b / 16), hexDigit (b % 16)])).flatten

/-- `hashlib.sha256(...).hexdigest()`. -/
def sha256HexDigest (msg : List Nat) : Chars := hexOfBytes (sha256 msg)

/-- The closed set of resource variants returned by the backend
(`simple_repository.model`): inline text, remote URL, or local file with
its context ETag (`resource.context.get("etag")`). -/
inductive SResource where
  | text (text : Chars)
  | http (url : Chars)
  | localFile (path : Chars) (ctxEtag : Option Chars)
deriving Repr, DecidableEq

/-- The body of a dispatched response. -/
inductive RespBody where
  | text (t : Chars)
  | file (path : Chars)
  | stream (chunks : List (List Nat))
  | empty
deriving Repr, DecidableEq

/-- A dispatched HTTP response: status, headers, media type, body. -/
structure HttpResp where
  status : Nat
  headers : List (Chars × Chars)
  mediaType : Option Chars
  body : RespBody
deriving Repr, DecidableEq

/-- What the upstream server would answer to the proxied GET: used by the
streaming branch only. -/
structure UpstreamResp where
  status_code : Nat
  headers : List (Chars × Chars)
  chunks : List (List Nat)
deriving Repr, DecidableEq

/-- The per-variant dispatch of the `resources` endpoint
(`routers/simple.py`), after `get_resource` returned:

* `TextResource` — ETag is the quoted first 12 hex characters of the
  SHA-256 of the UTF-8 text; equal `If-None-Match` gives 304 with the ETag
  header and no body, otherwise 200 `text/plain` with the text and the ETag.
* `HttpResource` — with `stream_http_resources` a `StreamingResponse`
  mirroring the upstream status, headers and body; otherwise a 302 redirect
  to the resource URL (the upstream is never contacted).
* `LocalResource` — the context ETag is used verbatim (`{"ETag": ctx_etag}
  if ctx_etag else {}`); a truthy `If-None-Match` equal to it gives 304,
  otherwise the file is served as `application/octet-stream`. -/
def dispatchResource (stream_http_resources : Bool) (resource : SResource)
    (ifNoneMatch : Option Chars) (upstream : UpstreamResp) : HttpResp :=
  match resource with
  | .text text =>
    let text_hash := (sha256HexDigest (utf8Bytes text)).take 12
    let etag := '"' :: (text_hash ++ ['"'])
    let response_headers := [(strOf "ETag", etag)]
    if some etag = ifNoneMatch then
      ⟨304, response_headers, none, .empty⟩
    else
      ⟨200, response_headers, some (strOf "text/plain"), .text text⟩
  | .http url =>
    if stream_http_resources then
      ⟨upstream.status_code, upstream.headers, none, .stream upstream.chunks⟩
    else
      ⟨302, [(strOf "location", url)], none, .empty⟩
  | .localFile path ctxEtag =>
    let response_headers := match ctxEtag with
      | some e => if e = [] then [] else [(strOf "ETag", e)]
      | none => []
    let etagMatches := match ifNoneMatch, ctxEtag with
      | some client_etag, some e =>
        if client_etag = [] then false else decide (client_etag = e)
      | _, _ => false
    if etagMatches then
      ⟨304, response_headers, none, .empty⟩
    else
      ⟨200, response_headers, some (strOf "application/octet-stream"),
        .file path⟩

/-- The quoted ETag computed for a `TextResource`. -/
def textEtag (text : Chars) : Chars :=
  '"' :: ((sha256HexDigest (utf8Bytes text)).take 12 ++ ['"'])

/-- Python's `str.replace(a, b)` for single characters. -/
def replaceChar (a b : Char) (s : Chars) : Chars :=
  s.map (fun c => if c = a then b else c)

/-- Python truthiness of an optional string (`None` and `""` are falsy). -/
def truthyOpt : Option Chars → Bool
  | some s => !s.isEmpty
  | none => false

/-- `get_response_format` (`routers/simple.py`): a truthy `format` query
parameter, with spaces restored to `+`, replaces the `Accept` header
entirely; otherwise the `Accept` header (defaulting to `""`) is used; the
selection itself is the backend collaborator
`content_negotiation.select_response_format`, abstracted here as `select`;
its `UnsupportedSerialization` failure becomes HTTP 406 with the error's
message. -/
def get_response_format (select : Chars → Except Chars Chars)
    (format : Option Chars) (acceptHeader : Option Chars) :
    Except (Nat × Chars) Chars :=
  let requested_format :=
    if truthyOpt format then replaceChar ' ' '+' (format.getD [])
    else acceptHeader.getD []
  match select requested_format with
  | .ok response_format => .ok response_format
  | .error e => .error (406, e)

/-- A project file (`simple_repository.model.File`): filename, URL, hashes,
and the remaining dataclass fields bundled opaquely in `rest`. -/
structure SFile (α : Type) where
  filename : Chars
  url : Chars
  hashes : List (Chars × Chars)
  rest : α
deriving DecidableEq

/-- A project page (`simple_repository.model.ProjectDetail`): name, ordered
files, and the remaining fields (`meta`, …) bundled opaquely in `meta`. -/
structure SProjectDetail (α β : Type) where
  name : Chars
  files : List (SFile α)
  meta : β
deriving DecidableEq

/-- `utils.replace_urls`: rebuild the files tuple, `dataclasses.replace`-ing
each file's `url` with the page-relative resource URL for the project name
and the file's filename (`relative_url_for(request, "resources", ...)`,
abstracted as `relUrlFor`), then `dataclasses.replace` the page with the new
tuple. -/
def replace_urls {α β : Type} (project_page : SProjectDetail α β)
    (project_name : Chars) (relUrlFor : Chars → Chars → Chars) :
    SProjectDetail α β :=
  let files := project_page.files.map (fun file =>
    { file with url := relUrlFor project_name file.filename })
  { project_page with files := files }

example :
    url_as_relative
      (strOf "https://simple-repository/resources/numpy/numpy-1.0.whl")
      (strOf "https://simple-repository/simple/numpy/")
    = .ok (strOf "../../resources/numpy/numpy-1.0.whl") := by decide

example :
    url_as_relative (strOf "https://h/simple/numpy/")
      (strOf "https://h/simple/Numpy/") = .ok (strOf "../numpy/") := by decide

example :
    url_as_relative (strOf "https://h/simple/") (strOf "https://h/simple/")
    = .ok (strOf "") := by decide

example :
    url_as_relative (strOf "https://h/simple") (strOf "https://h/simple")
    = .ok (strOf "simple") := by decide

example :
    url_as_relative (strOf "https://h/simple/")
      (strOf "https://h/simple/project/numpy") = .ok (strOf "../") := by decide

example :
    url_as_relative (strOf "https://h/simple/numpy")
      (strOf "https://h/simple/Numpy") = .ok (strOf "numpy") := by decide

example :
    url_as_relative (strOf "https://h/simple/numpy/") (strOf "https://h/simple/")
    = .ok (strOf "numpy/") := by decide

example :
    url_as_relative (strOf "https://h/simple") (strOf "https://h/simple/")
    = .ok (strOf "../simple") := by decide

example :
    url_as_relative (strOf "https://h/simple/") (strOf "https://h/simple")
    = .ok (strOf "simple/") := by decide

theorem splitFirstOn_not_mem {c : Char} {l : Chars} (h : c ∉ l) :
    splitFirstOn c l = none := by
  induction l with
  | nil => rfl
  | cons x xs ih =>
    simp only [List.mem_cons, not_or] at h
    simp [splitFirstOn, Ne.symm h.1, ih h.2]

theorem splitFirstOn_append {c : Char} {l₁ l₂ : Chars} (h : c ∉ l₁) :
    splitFirstOn c (l₁ ++ c :: l₂) = some (l₁, l₂) := by
  induction l₁ with
  | nil => simp [splitFirstOn]
  | cons x xs ih =>
    simp only [List.mem_cons, not_or] at h
    simp [splitFirstOn, Ne.symm h.1, ih h.2]

theorem takeWhile_append_all {p : Char → Bool} {l₁ l₂ : Chars}
    (h : ∀ a ∈ l₁, p a = true) :
    (l₁ ++ l₂).takeWhile p = l₁ ++ l₂.takeWhile p := by
  induction l₁ with
  | nil => simp
  | cons x xs ih =>
    simp only [List.cons_append, List.takeWhile_cons, h x (by simp), ih
      (fun a ha => h a (by simp [ha])), if_true]

theorem dropWhile_append_all {p : Char → Bool} {l₁ l₂ : Chars}
    (h : ∀ a ∈ l₁, p a = true) :
    (l₁ ++ l₂).dropWhile p = l₂.dropWhile p := by
  induction l₁ with
  | nil => simp
  | cons x xs ih =>
    simp only [List.cons_append, List.dropWhile_cons, h x (by simp), ih
      (fun a ha => h a (by simp [ha])), if_true]

theorem splitNetloc_slashes (rest : Chars) :
    splitNetloc ('/' :: '/' :: rest) =
      (rest.takeWhile (fun c => !netlocStop c),
        rest.dropWhile (fun c => !netlocStop c)) := by
  rfl

/-- `urlsplit` recovers the components from which a well-formed absolute
http(s) URL was assembled: the netloc holds none of `/?#`, the path is empty
or starts with `/` and holds none of `?#`, the query holds no `#`. -/
theorem urlparse_mkUrl (scheme netloc path query : Chars)
    (hs : scheme = strOf "http" ∨ scheme = strOf "https")
    (hn : ∀ c ∈ netloc, ¬netlocStop c)
    (hp0 : path = [] ∨ ∃ t, path = '/' :: t)
    (hp : ∀ c ∈ path, c ≠ '?' ∧ c ≠ '#')
    (hq : ∀ c ∈ query, c ≠ '#') :
    urlparse (mkUrl scheme netloc path query) =
      ⟨scheme, netloc, path, query, []⟩ := by
  have hsc : ':' ∉ scheme := by
    rcases hs with h | h <;> subst h <;> decide
  have hscheme :
      splitScheme (mkUrl scheme netloc path query) =
        (scheme,
          '/' :: '/' ::
            (netloc ++ (path ++ (if query = [] then [] else '?' :: query)))) := by
    unfold mkUrl splitScheme
    rw [splitFirstOn_append hsc]
    rcases hs with h | h <;> subst h <;>
      exact congrArg (fun s => (s, _)) (by decide)
  have hnl : ∀ c ∈ netloc, (!netlocStop c) = true := by
    intro c hc
    simp [hn c hc]
  have hrest :
      (path ++ (if query = [] then [] else '?' :: query)).takeWhile
          (fun c => !netlocStop c) = [] := by
    rcases hp0 with h | ⟨t, h⟩ <;> subst h
    · rcases em (query = []) with h | h <;> simp [h, netlocStop]
    · simp [netlocStop]
  have hdrop :
      (path ++ (if query = [] then [] else '?' :: query)).dropWhile
          (fun c => !netlocStop c) =
        path ++ (if query = [] then [] else '?' :: query) := by
    rcases hp0 with h | ⟨t, h⟩ <;> subst h
    · rcases em (query = []) with h | h <;> simp [h, netlocStop]
    · simp [netlocStop]
  have hnetloc :
      splitNetloc
          ('/' :: '/' ::
            (netloc ++ (path ++ (if query = [] then [] else '?' :: query)))) =
        (netloc, path ++ (if query = [] then [] else '?' :: query)) := by
    rw [splitNetloc_slashes, takeWhile_append_all hnl, dropWhile_append_all hnl,
      hrest, hdrop, List.append_nil]
  have hfrag :
      splitFirstOn '#'
          (path ++ (if query = [] then [] else '?' :: query)) = none := by
    apply splitFirstOn_not_mem
    intro hmem
    rcases List.mem_append.mp hmem with h | h
    · exact (hp _ h).2 rfl
    · rcases em (query = []) with hq0 | hq0
      · rw [if_pos hq0] at h
        simp at h
      · rw [if_neg hq0] at h
        rcases List.mem_cons.mp h with h | h
        · exact absurd h (by decide)
        · exact hq _ h rfl
  have hquery :
      splitFirstOn '?'
          (path ++ (if query = [] then [] else '?' :: query)) =
        if query = [] then none else some (path, query) := by
    rcases em (query = []) with hq0 | hq0
    · simp only [hq0, if_true, List.append_nil]
      exact splitFirstOn_not_mem (fun hmem => (hp _ hmem).1 rfl)
    · simp only [hq0, if_false]
      exact splitFirstOn_append (fun hmem => (hp _ hmem).1 rfl)
  unfold urlparse
  rw [hscheme]
  simp only
  rw [hnetloc]
  simp only
  rw [hfrag]
  simp only
  rw [hquery]
  rcases em (query = []) with hq0 | hq0 <;> simp [hq0]

example :
    (url_as_relative (strOf "https://r/resources/numpy/numpy-1.0.whl")
      (strOf "http://r/simple/numpy/")).isOk = false := by decide

example :
    (url_as_relative (strOf "../tensorflow")
      (strOf "https://r/simple/numpy/")).isOk = false := by decide

example :
    (url_as_relative (strOf "https://r:80/simple/numpy")
      (strOf "https://r:81/simple/Numpy")).isOk = false := by decide

theorem matchedTokens_eq_take (d o : List Chars) :
    matchedTokens d o = d.take (commonPrefixLen d o) := by
  induction d generalizing o with
  | nil => cases o <;> rfl
  | cons x xs ih =>
    cases o with
    | nil => rfl
    | cons y ys =>
      by_cases h : x = y
      · simp [matchedTokens, commonPrefixLen, h, ih]
      · simp [matchedTokens, commonPrefixLen, h]

theorem commonPrefixLen_le_left (d o : List Chars) :
    commonPrefixLen d o ≤ d.length := by
  induction d generalizing o with
  | nil => cases o <;> simp [commonPrefixLen]
  | cons x xs ih =>
    cases o with
    | nil => simp [commonPrefixLen]
    | cons y ys =>
      by_cases h : x = y
      · simpa [commonPrefixLen, h] using ih ys
      · simp [commonPrefixLen, h]

theorem matchedTokens_length (d o : List Chars) :
    (matchedTokens d o).length = commonPrefixLen d o := by
  rw [matchedTokens_eq_take, List.length_take]
  exact Nat.min_eq_left (commonPrefixLen_le_left d o)

/-- The loop of `url_as_relative` computes exactly the spec's step 1–4
algorithm. -/
theorem relativizePath_eq_spec (destPath originPath : Chars) :
    relativizePath destPath originPath = specRelativize destPath originPath := by
  simp only [relativizePath, specRelativize, matchedTokens_length,
    matchedTokens_eq_take, List.length_take,
    Nat.min_eq_left (commonPrefixLen_le_left _ _)]

/-- C2: on every pair of absolute http(s) URLs with equal scheme and netloc,
`url_as_relative` returns exactly the string computed by the spec's
relativization algorithm (`specRelativize`), and all five literal rows of
the spec's §8 table hold, including the no-trailing-slash row
`https://h/simple → https://h/simple → simple`. -/
theorem url_as_relative_matches_spec_algorithm :
    (∀ scheme netloc pathD pathO,
      (scheme = strOf "http" ∨ scheme = strOf "https") →
      (∀ c ∈ netloc, ¬netlocStop c) →
      (pathD = [] ∨ ∃ t, pathD = '/' :: t) →
      (∀ c ∈ pathD, c ≠ '?' ∧ c ≠ '#') →
      (pathO = [] ∨ ∃ t, pathO = '/' :: t) →
      (∀ c ∈ pathO, c ≠ '?' ∧ c ≠ '#') →
      url_as_relative (mkUrl scheme netloc pathD []) (mkUrl scheme netloc pathO [])
        = .ok (specRelativize pathD pathO))
    ∧ url_as_relative (strOf "https://h/resources/numpy/numpy-1.0.whl")
        (strOf "https://h/simple/numpy/")
        = .ok (strOf "../../resources/numpy/numpy-1.0.whl")
    ∧ url_as_relative (strOf "https://h/simple/numpy/")
        (strOf "https://h/simple/Numpy/") = .ok (strOf "../numpy/")
    ∧ url_as_relative (strOf "https://h/simple/") (strOf "https://h/simple/")
        = .ok (strOf "")
    ∧ url_as_relative (strOf "https://h/simple") (strOf "https://h/simple")
        = .ok (strOf "simple")
    ∧ url_as_relative (strOf "https://h/simple/")
        (strOf "https://h/simple/project/numpy") = .ok (strOf "../") := by
  refine ⟨?_, by decide, by decide, by decide, by decide, by decide⟩
  intro scheme netloc pathD pathO hs hn hd0 hd ho0 ho
  unfold url_as_relative
  rw [urlparse_mkUrl scheme netloc pathD [] hs hn hd0 hd (by simp),
    urlparse_mkUrl scheme netloc pathO [] hs hn ho0 ho (by simp)]
  rw [if_neg, relativizePath_eq_spec]
  push_neg
  exact ⟨rfl, hs, rfl⟩

/-- Witness for `url_as_relative_matches_spec_algorithm` at the concrete
components of table row 2. -/
theorem url_as_relative_matches_spec_algorithm_witness :
    url_as_relative
        (mkUrl (strOf "https") (strOf "h") (strOf "/simple/numpy/") [])
        (mkUrl (strOf "https") (strOf "h") (strOf "/simple/Numpy/") [])
      = .ok (specRelativize (strOf "/simple/numpy/") (strOf "/simple/Numpy/")) :=
  url_as_relative_matches_spec_algorithm.1 (strOf "https") (strOf "h")
    (strOf "/simple/numpy/") (strOf "/simple/Numpy/") (Or.inr rfl) (by decide)
    (Or.inr ⟨strOf "simple/numpy/", by decide⟩) (by decide)
    (Or.inr ⟨strOf "simple/Numpy/", by decide⟩) (by decide)

example :
    urljoin (strOf "https://h/simple/numpy/")
      (strOf "../../resources/numpy/numpy-1.0.whl")
    = strOf "https://h/resources/numpy/numpy-1.0.whl" := by decide

example :
    urljoin (strOf "https://h/simple/Numpy/") (strOf "../numpy/")
    = strOf "https://h/simple/numpy/" := by decide

example :
    urljoin (strOf "https://h/simple/") (strOf "")
    = strOf "https://h/simple/" := by decide

example :
    urljoin (strOf "https://h/simple") (strOf "simple")
    = strOf "https://h/simple" := by decide

example :
    urljoin (strOf "https://h/simple/project/numpy") (strOf "../")
    = strOf "https://h/simple/" := by decide

example :
    urljoin (strOf "https://h/a/b") (strOf "../") = strOf "https://h/" := by decide

theorem joinSlash_cons (a : Chars) {l : List Chars} (h : l ≠ []) :
    joinSlash (a :: l) = a ++ '/' :: joinSlash l := by
  cases l with
  | nil => exact absurd rfl h
  | cons b t => rfl

theorem joinSlash_eq_intercalate (l : List Chars) :
    joinSlash l = List.intercalate ['/'] l := by
  induction l with
  | nil => rfl
  | cons a t ih =>
    cases t with
    | nil => simp [joinSlash, List.intercalate]
    | cons b t' =>
      rw [joinSlash_cons a (by simp), ih]
      simp [List.intercalate, List.intersperse]

theorem splitOn_joinSlash {parts : List Chars}
    (h : ∀ p ∈ parts, '/' ∉ p) (h0 : parts ≠ []) :
    List.splitOn '/' (joinSlash parts) = parts := by
  rw [joinSlash_eq_intercalate]
  exact List.splitOn_intercalate parts '/' h h0

theorem flatten_replicate_dots (u : Nat) {X : List Chars} (hX : X ≠ []) :
    (List.replicate u (strOf "../")).flatten ++ joinSlash X
      = joinSlash (List.replicate u (strOf "..") ++ X) := by
  induction u with
  | zero => simp
  | succ n ih =>
    rw [List.replicate_succ, List.replicate_succ]
    rw [List.flatten_cons, List.cons_append,
      joinSlash_cons (strOf "..") (by simp [hX]), ← ih]
    rfl

theorem flatten_take_join (raw : List Chars) (k : Nat) (hk : k < raw.length) :
    ((raw.take k).map (fun t => t ++ ['/'])).flatten ++ joinSlash (raw.drop k)
      = joinSlash raw := by
  induction raw generalizing k with
  | nil => simp at hk
  | cons x xs ih =>
    cases k with
    | zero => simp
    | succ n =>
      have hn : n < xs.length := by simpa using hk
      have hxs : xs ≠ [] := by
        cases xs with
        | nil => simp at hn
        | cons _ _ => simp
      rw [List.take_succ_cons, List.drop_succ_cons, List.map_cons,
        List.flatten_cons, joinSlash_cons x hxs, List.append_assoc,
        ih n hn]
      simp [List.append_assoc]

theorem matchedTokens_eq_take_right (d o : List Chars) :
    matchedTokens d o = o.take (commonPrefixLen d o) := by
  induction d generalizing o with
  | nil => cases o <;> rfl
  | cons x xs ih =>
    cases o with
    | nil => rfl
    | cons y ys =>
      by_cases h : x = y
      · simp [matchedTokens, commonPrefixLen, h, ih]
      · simp [matchedTokens, commonPrefixLen, h]

theorem commonPrefixLen_le_right (d o : List Chars) :
    commonPrefixLen d o ≤ o.length := by
  induction d generalizing o with
  | nil => cases o <;> simp [commonPrefixLen]
  | cons x xs ih =>
    cases o with
    | nil => simp [commonPrefixLen]
    | cons y ys =>
      by_cases h : x = y
      · simpa [commonPrefixLen, h] using ih ys
      · simp [commonPrefixLen, h]

theorem removePre_append (pre s : Chars) : removePre (pre ++ s) pre = s := by
  unfold removePre
  rw [if_pos, List.drop_left]
  rw [List.isPrefixOf_iff_prefix]
  exact ⟨s, rfl⟩

theorem keepLastFilter_cons_cons (a b : Chars) (t : List Chars) :
    keepLastFilter (a :: b :: t) =
      if a = [] then keepLastFilter (b :: t) else a :: keepLastFilter (b :: t) := by
  rfl

theorem keepLastFilter_no_empty {l : List Chars}
    (h : ∀ x ∈ l.dropLast, x ≠ []) : keepLastFilter l = l := by
  induction l with
  | nil => rfl
  | cons a t ih =>
    cases t with
    | nil => rfl
    | cons b t' =>
      have ha : a ≠ [] := h a (by simp)
      rw [keepLastFilter_cons_cons, if_neg ha, ih]
      intro x hx
      exact h x (by simp [List.dropLast_cons₂] at hx ⊢; exact Or.inr hx)

theorem keepLastFilter_append_no_empty {A B : List Chars}
    (hA : ∀ x ∈ A, x ≠ []) (hB : B ≠ []) :
    keepLastFilter (A ++ B) = A ++ keepLastFilter B := by
  induction A with
  | nil => simp
  | cons a t ih =>
    have hcons : ∃ b t', t ++ B = b :: t' := by
      cases ht : t ++ B with
      | nil => exact absurd (List.append_eq_nil.mp ht).2 hB
      | cons b t' => exact ⟨b, t', rfl⟩
    obtain ⟨b, t', hbt⟩ := hcons
    rw [List.cons_append, hbt, keepLastFilter_cons_cons,
      if_neg (hA a (by simp)), ← hbt, ih (fun x hx => hA x (by simp [hx]))]
    rfl

theorem keepLastFilter_empty_cons {B : List Chars} (hB : B ≠ []) :
    keepLastFilter ([] :: B) = keepLastFilter B := by
  cases B with
  | nil => exact absurd rfl hB
  | cons b t => rw [keepLastFilter_cons_cons, if_pos rfl]

theorem foldl_resolve_plain {l : List Chars} (acc : List Chars)
    (h : ∀ x ∈ l, x ≠ strOf ".." ∧ x ≠ strOf ".") :
    List.foldl resolveStep acc l = acc ++ l := by
  induction l generalizing acc with
  | nil => simp
  | cons x xs ih =>
    rw [List.foldl_cons]
    rw [resolveStep, if_neg (h x (by simp)).1, if_neg (h x (by simp)).2]
    rw [ih (acc ++ [x]) (fun y hy => h y (by simp [hy]))]
    simp

theorem foldl_resolve_dots (u : Nat) (acc : List Chars) :
    List.foldl resolveStep acc (List.replicate u (strOf "..")) =
      acc.take (acc.length - u) := by
  induction u generalizing acc with
  | zero => simp
  | succ n ih =>
    rw [List.replicate_succ, List.foldl_cons]
    rw [resolveStep, if_pos rfl, ih]
    rw [List.dropLast_eq_take, List.take_take, List.length_take]
    congr 1
    omega

theorem splitOn_pathOf (segs : List Chars) (lastSeg : Chars)
    (h : ∀ s ∈ segs, '/' ∉ s) (hl : '/' ∉ lastSeg) :
    List.splitOn '/' (pathOf segs lastSeg) = [] :: (segs ++ [lastSeg]) := by
  have h1 : pathOf segs lastSeg = joinSlash ([] :: (segs ++ [lastSeg])) := by
    rw [joinSlash_cons [] (by simp)]
    rfl
  rw [h1]
  apply splitOn_joinSlash
  · intro p hp
    rcases List.mem_cons.mp hp with hp | hp
    · simp [hp]
    · rcases List.mem_append.mp hp with hp | hp
      · exact h p hp
      · rw [List.mem_singleton.mp hp]; exact hl
  · simp

theorem pathTokens_pathOf (segs : List Chars) (lastSeg : Chars)
    (h : ∀ s ∈ segs, '/' ∉ s) (hl : '/' ∉ lastSeg) :
    pathTokens (pathOf segs lastSeg) = segs := by
  unfold pathTokens
  rw [splitOn_pathOf segs lastSeg h hl]
  simp [List.dropLast_concat]

/-- On paths written as `/s1/.../sn/last`, `url_as_relative`'s loop produces
`(origin segments − k)` copies of `..` and the destination's segments from
position `k` on, all joined by `/`. -/
theorem relativizePath_pathOf (oSegs dSegs : List Chars) (oLast dLast : Chars)
    (hoS : ∀ s ∈ oSegs, '/' ∉ s) (hdS : ∀ s ∈ dSegs, '/' ∉ s)
    (hoL : '/' ∉ oLast) (hdL : '/' ∉ dLast) :
    relativizePath (pathOf dSegs dLast) (pathOf oSegs oLast) =
      joinSlash
        (List.replicate (oSegs.length - commonPrefixLen dSegs oSegs) (strOf "..")
          ++ (dSegs ++ [dLast]).drop (commonPrefixLen dSegs oSegs)) := by
  have hkd : commonPrefixLen dSegs oSegs ≤ dSegs.length :=
    commonPrefixLen_le_left dSegs oSegs
  have hkraw : commonPrefixLen dSegs oSegs < (dSegs ++ [dLast]).length := by
    rw [List.length_append]
    simpa using Nat.lt_succ_of_le hkd
  have hdropne : (dSegs ++ [dLast]).drop (commonPrefixLen dSegs oSegs) ≠ [] := by
    intro h
    have := List.length_drop (commonPrefixLen dSegs oSegs) (dSegs ++ [dLast])
    rw [h] at this
    simp at this
    omega
  have htake : (dSegs ++ [dLast]).take (commonPrefixLen dSegs oSegs) =
      dSegs.take (commonPrefixLen dSegs oSegs) :=
    List.take_append_of_le_length hkd
  have hsplit : pathOf dSegs dLast =
      ('/' ::
        ((((dSegs ++ [dLast]).take (commonPrefixLen dSegs oSegs)).map
          (fun t => t ++ ['/'])).flatten)) ++
        joinSlash ((dSegs ++ [dLast]).drop (commonPrefixLen dSegs oSegs)) := by
    rw [List.cons_append, flatten_take_join _ _ hkraw]
    rfl
  simp only [relativizePath, matchedTokens_length, matchedTokens_eq_take,
    List.length_take, Nat.min_eq_left (commonPrefixLen_le_left _ _),
    pathTokens_pathOf dSegs dLast hdS hdL, pathTokens_pathOf oSegs oLast hoS hoL]
  rw [← htake, hsplit, removePre_append]
  rw [← flatten_replicate_dots _ hdropne]

theorem head_ne_slash {p : Chars} (hp : '/' ∉ p) : p.head? ≠ some '/' := by
  cases p with
  | nil => simp
  | cons c cs =>
    intro h
    simp only [List.head?_cons, Option.some.injEq] at h
    exact hp (h ▸ List.mem_cons_self c cs)

theorem joinSlash_head (p0 : Chars) (rest : List Chars) (h : p0 ≠ []) :
    (joinSlash (p0 :: rest)).head? = p0.head? := by
  cases rest with
  | nil => rfl
  | cons b t =>
    rw [joinSlash_cons p0 (by simp), List.head?_append]
    cases p0 with
    | nil => exact absurd rfl h
    | cons c cs => rfl

theorem getLast?_cons_append (x : Chars) (l : List Chars) (a : Chars) :
    (x :: (l ++ [a])).getLast? = some a := by
  rw [← List.cons_append, List.getLast?_concat]

/-- Assembling the joined segments for a base `/o1/.../on/oLast` and a
relative (non-absolute) reference: the base's final segment is dropped, the
empty segment left by a trailing slash is filtered out, and the reference's
segments are appended. -/
theorem urljoinSegments_pathOf (oSegs : List Chars) (oLast : Chars)
    (rel : Chars) (RP : List Chars)
    (hoS : ∀ s ∈ oSegs, s ≠ [] ∧ '/' ∉ s)
    (hoL : '/' ∉ oLast)
    (hsplit : List.splitOn '/' rel = RP)
    (hhead : ¬rel.head? = some '/')
    (hRPne : RP ≠ [])
    (hRPd : ∀ x ∈ RP.dropLast, x ≠ []) :
    urljoinSegments (pathOf oSegs oLast) rel = [] :: (oSegs ++ RP) := by
  have hklf : keepLastFilter RP = RP :=
    keepLastFilter_no_empty hRPd
  simp only [urljoinSegments,
    splitOn_pathOf oSegs oLast (fun s hs => (hoS s hs).2) hoL, hsplit]
  rw [if_neg hhead]
  by_cases h0 : oLast = []
  · subst h0
    rw [if_pos (by rw [← List.cons_append, List.getLast?_concat])]
    rw [List.cons_append, List.append_assoc, List.singleton_append]
    show ([] : Chars) :: keepLastFilter (oSegs ++ ([] :: RP)) = _
    rw [keepLastFilter_append_no_empty (fun x hx => (hoS x hx).1) (by simp),
      keepLastFilter_empty_cons hRPne, hklf]
  · rw [if_neg (by rw [← List.cons_append, List.getLast?_concat]; simp [h0]),
      ← List.cons_append, List.dropLast_concat, List.cons_append]
    show ([] : Chars) :: keepLastFilter (oSegs ++ RP) = _
    rw [keepLastFilter_append_no_empty (fun x hx => (hoS x hx).1) hRPne, hklf]

/-- Joining the origin with the relative path computed by the relativizer
recovers the destination path, for ordinary slash-led paths, provided the
relative path is nonempty or the two paths are equal. -/
theorem resolvePath_relativizePath
    (oSegs dSegs : List Chars) (oLast dLast : Chars)
    (hoS : ∀ s ∈ oSegs, s ≠ [] ∧ '/' ∉ s ∧ s ≠ strOf "." ∧ s ≠ strOf "..")
    (hdS : ∀ s ∈ dSegs, s ≠ [] ∧ '/' ∉ s ∧ s ≠ strOf "." ∧ s ≠ strOf "..")
    (hoL : '/' ∉ oLast)
    (hdL : '/' ∉ dLast ∧ dLast ≠ strOf "." ∧ dLast ≠ strOf "..")
    (hcond : relativizePath (pathOf dSegs dLast) (pathOf oSegs oLast) ≠ [] ∨
      pathOf dSegs dLast = pathOf oSegs oLast) :
    resolvePath (pathOf oSegs oLast)
        (relativizePath (pathOf dSegs dLast) (pathOf oSegs oLast)) =
      pathOf dSegs dLast := by
  have hrelEq := relativizePath_pathOf oSegs dSegs oLast dLast
    (fun s hs => (hoS s hs).2.1) (fun s hs => (hdS s hs).2.1) hoL hdL.1
  by_cases hempty : relativizePath (pathOf dSegs dLast) (pathOf oSegs oLast) = []
  · rcases hcond with h | h
    · exact absurd hempty h
    · rw [hempty, h]
      unfold resolvePath
      rw [if_pos rfl]
  · set k := commonPrefixLen dSegs oSegs with hk
    have hkd : k ≤ dSegs.length := commonPrefixLen_le_left dSegs oSegs
    have hko : k ≤ oSegs.length := commonPrefixLen_le_right dSegs oSegs
    have hdropK : (dSegs ++ [dLast]).drop k = dSegs.drop k ++ [dLast] :=
      List.drop_append_of_le_length hkd
    set u := oSegs.length - k with hu
    set RP := List.replicate u (strOf "..") ++ (dSegs ++ [dLast]).drop k with hRP
    have hRPd : ∀ x ∈ RP.dropLast, x ≠ [] := by
      rw [hRP, hdropK, ← List.append_assoc, List.dropLast_concat]
      intro x hx
      rcases List.mem_append.mp hx with hx | hx
      · rw [List.eq_of_mem_replicate hx]
        decide
      · exact (hdS x (List.mem_of_mem_drop hx)).1
    have hRPslash : ∀ p ∈ RP, '/' ∉ p := by
      rw [hRP, hdropK]
      intro p hp
      rcases List.mem_append.mp hp with hp | hp
      · rw [List.eq_of_mem_replicate hp]
        decide
      · rcases List.mem_append.mp hp with hp | hp
        · exact (hdS p (List.mem_of_mem_drop hp)).2.1
        · rw [List.mem_singleton.mp hp]
          exact hdL.1
    have hRPne : RP ≠ [] := by
      rw [hRP, hdropK]
      simp
    have hrelsplit : List.splitOn '/' (joinSlash RP) = RP :=
      splitOn_joinSlash hRPslash hRPne
    have hjne : joinSlash RP ≠ [] := by
      rw [← hrelEq]
      exact hempty
    have hheadns : ¬(joinSlash RP).head? = some '/' := by
      rcases Nat.eq_zero_or_pos u with hu0 | hu0
      · rw [hRP, hu0, hdropK, List.replicate_zero, List.nil_append]
        cases hdd : dSegs.drop k with
        | nil =>
          rw [List.nil_append]
          exact head_ne_slash hdL.1
        | cons p ps =>
          have hpd : p ∈ dSegs := List.mem_of_mem_drop (hdd ▸ List.mem_cons_self p ps)
          rw [List.cons_append, joinSlash_head p _ (hdS p hpd).1]
          exact head_ne_slash (hdS p hpd).2.1
      · obtain ⟨n, hn⟩ := Nat.exists_eq_succ_of_ne_zero (Nat.pos_iff_ne_zero.mp hu0)
        rw [hRP, hn, List.replicate_succ, List.cons_append]
        rw [joinSlash_head (strOf "..") _ (by decide)]
        decide
    have hseg := urljoinSegments_pathOf oSegs oLast (joinSlash RP) RP
      (fun s hs => ⟨(hoS s hs).1, (hoS s hs).2.1⟩) hoL hrelsplit hheadns hRPne hRPd
    have hglast : (([] : Chars) :: (oSegs ++ RP)).getLast? = some dLast := by
      rw [hRP, hdropK]
      simp only [← List.append_assoc]
      exact getLast?_cons_append _ _ _
    have htko : List.take k oSegs = List.take k dSegs :=
      (matchedTokens_eq_take_right dSegs oSegs).symm.trans
        (matchedTokens_eq_take dSegs oSegs)
    have hres : resolveSegs (([] : Chars) :: (oSegs ++ RP)) =
        [] :: (dSegs ++ [dLast]) := by
      unfold resolveSegs
      rw [List.foldl_cons]
      have h1 : resolveStep [] ([] : Chars) = [[]] := by decide
      rw [h1, hRP, hdropK, List.foldl_append, List.foldl_append,
        foldl_resolve_plain [[]] (fun x hx =>
          ⟨(hoS x hx).2.2.2, (hoS x hx).2.2.1⟩),
        List.singleton_append, foldl_resolve_dots u ([] :: oSegs)]
      have h2 : ([] :: oSegs).length - u = k + 1 := by
        simp only [List.length_cons]
        omega
      rw [h2, List.take_succ_cons, htko,
        foldl_resolve_plain ([] :: List.take k dSegs) (fun x hx => by
          rcases List.mem_append.mp hx with hx | hx
          · exact ⟨(hdS x (List.mem_of_mem_drop hx)).2.2.2,
              (hdS x (List.mem_of_mem_drop hx)).2.2.1⟩
          · rw [List.mem_singleton.mp hx]
            exact ⟨hdL.2.2, hdL.2.1⟩),
        List.cons_append, ← List.append_assoc, List.take_append_drop]
    rw [hrelEq]
    unfold resolvePath
    rw [if_neg hjne]
    simp only [hseg, hres, hglast]
    have hfinal : joinSlash (([] : Chars) :: (dSegs ++ [dLast])) =
        pathOf dSegs dLast := by
      rw [joinSlash_cons ([] : Chars) (by simp), List.nil_append]
      rfl
    rw [if_neg (show
        ¬(some dLast = some (strOf ".") ∨ some dLast = some (strOf "..")) by
      simp [hdL.2.1, hdL.2.2]), hfinal]
    rw [if_neg (show ¬(pathOf dSegs dLast = []) by simp [pathOf])]

theorem mem_joinSlash {c : Char} {parts : List Chars} (h : c ∈ joinSlash parts) :
    c = '/' ∨ ∃ p ∈ parts, c ∈ p := by
  induction parts with
  | nil => simp [joinSlash] at h
  | cons a t ih =>
    cases t with
    | nil =>
      exact Or.inr ⟨a, by simp, h⟩
    | cons b t' =>
      rw [joinSlash_cons a (by simp)] at h
      rcases List.mem_append.mp h with h | h
      · exact Or.inr ⟨a, by simp, h⟩
      · rcases List.mem_cons.mp h with h | h
        · exact Or.inl h
        · rcases ih h with h | ⟨p, hp, hc⟩
          · exact Or.inl h
          · exact Or.inr ⟨p, by simp [hp], hc⟩

theorem pathOf_forall {P : Char → Prop} {segs : List Chars} {lastSeg : Chars}
    (hslash : P '/') (hs : ∀ s ∈ segs, ∀ c ∈ s, P c)
    (hl : ∀ c ∈ lastSeg, P c) : ∀ c ∈ pathOf segs lastSeg, P c := by
  intro c hc
  rcases List.mem_cons.mp hc with hc | hc
  · exact hc ▸ hslash
  · rcases mem_joinSlash hc with hc | ⟨p, hp, hcp⟩
    · exact hc ▸ hslash
    · rcases List.mem_append.mp hp with hp | hp
      · exact hs p hp c hcp
      · rw [List.mem_singleton.mp hp] at hcp
        exact hl c hcp

/-- C3 (counterexample): for origin `https://h/a/b` and destination
`https://h/a/` — same scheme, same netloc, both absolute — the relativizer
returns the empty string, and joining it onto the origin returns the origin,
not the destination. -/
theorem urljoin_not_left_inverse_counterexample :
    url_as_relative (strOf "https://h/a/") (strOf "https://h/a/b")
        = .ok (strOf "")
    ∧ urljoin (strOf "https://h/a/b") (strOf "") = strOf "https://h/a/b"
    ∧ strOf "https://h/a/b" ≠ strOf "https://h/a/" := by
  decide

/-- C3 (amended): for absolute http(s) URLs sharing scheme and netloc whose
paths are `/`-led sequences of ordinary (nonempty, delimiter-free, non-dot)
segments with an optional trailing slash, joining the origin with the
relative path returned by `url_as_relative` yields the destination,
provided the relative path is nonempty or the two URLs are equal. -/
theorem urljoin_url_as_relative_left_inverse
    (scheme netloc : Chars) (oSegs dSegs : List Chars) (oLast dLast rel : Chars)
    (hs : scheme = strOf "http" ∨ scheme = strOf "https")
    (hn : ∀ c ∈ netloc, ¬netlocStop c)
    (hoS : ∀ s ∈ oSegs, s ≠ [] ∧ plainSeg s)
    (hdS : ∀ s ∈ dSegs, s ≠ [] ∧ plainSeg s)
    (hoL : ∀ c ∈ oLast, c ≠ '/' ∧ c ≠ '?' ∧ c ≠ '#')
    (hdL : plainSeg dLast)
    (hrel : url_as_relative (mkUrl scheme netloc (pathOf dSegs dLast) [])
      (mkUrl scheme netloc (pathOf oSegs oLast) []) = .ok rel)
    (hcond : rel ≠ [] ∨ pathOf dSegs dLast = pathOf oSegs oLast) :
    urljoin (mkUrl scheme netloc (pathOf oSegs oLast) []) rel =
      mkUrl scheme netloc (pathOf dSegs dLast) [] := by
  have hpO : ∀ c ∈ pathOf oSegs oLast, c ≠ '?' ∧ c ≠ '#' := by
    refine pathOf_forall (by decide) ?_ ?_
    · exact fun s hs c hc => ⟨((hoS s hs).2.1 c hc).2.1, ((hoS s hs).2.1 c hc).2.2⟩
    · exact fun c hc => ⟨(hoL c hc).2.1, (hoL c hc).2.2⟩
  have hpD : ∀ c ∈ pathOf dSegs dLast, c ≠ '?' ∧ c ≠ '#' := by
    refine pathOf_forall (by decide) ?_ ?_
    · exact fun s hs c hc => ⟨((hdS s hs).2.1 c hc).2.1, ((hdS s hs).2.1 c hc).2.2⟩
    · exact fun c hc => ⟨(hdL.1 c hc).2.1, (hdL.1 c hc).2.2⟩
  have hrelval : rel = relativizePath (pathOf dSegs dLast) (pathOf oSegs oLast) := by
    rw [url_as_relative,
      urlparse_mkUrl scheme netloc (pathOf dSegs dLast) [] hs hn
        (Or.inr ⟨_, rfl⟩) hpD (by simp),
      urlparse_mkUrl scheme netloc (pathOf oSegs oLast) [] hs hn
        (Or.inr ⟨_, rfl⟩) hpO (by simp)] at hrel
    rw [if_neg (by push_neg; exact ⟨rfl, hs, rfl⟩)] at hrel
    exact (Except.ok.injEq _ _ ▸ hrel).symm
  rw [urljoin,
    urlparse_mkUrl scheme netloc (pathOf oSegs oLast) [] hs hn
      (Or.inr ⟨_, rfl⟩) hpO (by simp)]
  show mkUrl scheme netloc (resolvePath (pathOf oSegs oLast) rel) [] = _
  rw [hrelval]
  rw [resolvePath_relativizePath oSegs dSegs oLast dLast
    (fun s hsm => ⟨(hoS s hsm).1, fun hm => ((hoS s hsm).2.1 '/' hm).1 rfl,
      (hoS s hsm).2.2.1, (hoS s hsm).2.2.2⟩)
    (fun s hsm => ⟨(hdS s hsm).1, fun hm => ((hdS s hsm).2.1 '/' hm).1 rfl,
      (hdS s hsm).2.2.1, (hdS s hsm).2.2.2⟩)
    (fun hm => (hoL '/' hm).1 rfl)
    ⟨fun hm => (hdL.1 '/' hm).1 rfl, hdL.2.1, hdL.2.2⟩
    (by rw [← hrelval]; exact hcond)]

/-- Witness for `urljoin_url_as_relative_left_inverse` at origin
`https://h/a/b`, destination `https://h/a/c`. -/
theorem urljoin_url_as_relative_left_inverse_witness :
    urljoin (mkUrl (strOf "https") (strOf "h") (pathOf [strOf "a"] (strOf "b")) [])
        (strOf "c") =
      mkUrl (strOf "https") (strOf "h") (pathOf [strOf "a"] (strOf "c")) [] :=
  urljoin_url_as_relative_left_inverse (strOf "https") (strOf "h")
    [strOf "a"] [strOf "a"] (strOf "b") (strOf "c") (strOf "c")
    (Or.inr rfl) (by decide) (by decide) (by decide) (by decide) (by decide)
    (by decide) (Or.inl (by decide))

theorem slashLed_of_head {p : Chars} (h : p = [] ∨ p.head? = some '/') :
    p = [] ∨ ∃ t, p = '/' :: t := by
  rcases h with h | h
  · exact Or.inl h
  · cases p with
    | nil => exact Or.inl rfl
    | cons c t =>
      simp only [List.head?_cons, Option.some.injEq] at h
      exact Or.inr ⟨t, by rw [h]⟩

theorem urlparse_scheme_no_colon {p : Chars} (h : ':' ∉ p) :
    (urlparse p).scheme = [] := by
  unfold urlparse splitScheme
  rw [splitFirstOn_not_mem h]

/-- C4 (counterexample): `ftp://h/a` and `ftp://h/b` are absolute URLs —
they parse with a scheme and a network location — and they share scheme and
netloc, yet `url_as_relative` fails on them. -/
theorem url_as_relative_ftp_counterexample :
    urlparse (strOf "ftp://h/a")
        = ⟨strOf "ftp", strOf "h", strOf "/a", [], []⟩
    ∧ urlparse (strOf "ftp://h/b")
        = ⟨strOf "ftp", strOf "h", strOf "/b", [], []⟩
    ∧ (url_as_relative (strOf "ftp://h/a") (strOf "ftp://h/b")).isOk = false := by
  decide

/-- C4 (amended): over well-formed inputs, `url_as_relative` fails — with
an error naming both URLs — exactly when the two inputs are not absolute
http(s) URLs sharing scheme and network location, and succeeds exactly when
they are. -/
theorem url_as_relative_error_iff (o d : UrlInput) (hwo : o.wf) (hwd : d.wf) :
    (url_as_relative d.render o.render =
        .error (strOf "Cannot create a relative url from " ++ o.render
          ++ strOf " to " ++ d.render)
      ↔ ¬sameOriginAbs o d)
    ∧ ((url_as_relative d.render o.render).isOk ↔ sameOriginAbs o d) := by
  cases o with
  | rel po =>
    have hpo : (urlparse (UrlInput.rel po).render).scheme = [] :=
      urlparse_scheme_no_colon hwo
    have herr : url_as_relative d.render (UrlInput.rel po).render =
        .error (strOf "Cannot create a relative url from "
          ++ (UrlInput.rel po).render ++ strOf " to " ++ d.render) := by
      rw [url_as_relative]
      rw [if_pos]
      refine Or.inr (Or.inl ?_)
      rw [hpo]
      decide
    rw [herr]
    cases d <;> simp [sameOriginAbs, Except.isOk, Except.toBool]
  | abs so no po =>
    obtain ⟨hso, hno, hpo0, hpoc⟩ := hwo
    have hparseo : urlparse (UrlInput.abs so no po).render =
        ⟨so, no, po, [], []⟩ :=
      urlparse_mkUrl so no po [] hso hno (slashLed_of_head hpo0) hpoc (by simp)
    cases d with
    | rel pd =>
      have hpd : (urlparse (UrlInput.rel pd).render).scheme = [] :=
        urlparse_scheme_no_colon hwd
      have herr : url_as_relative (UrlInput.rel pd).render
          (UrlInput.abs so no po).render =
          .error (strOf "Cannot create a relative url from "
            ++ (UrlInput.abs so no po).render ++ strOf " to "
            ++ (UrlInput.rel pd).render) := by
        rw [url_as_relative]
        rw [if_pos]
        refine Or.inl ?_
        rw [hparseo, hpd]
        rcases hso with h | h <;> subst h
        · show strOf "http" ≠ []
          decide
        · show strOf "https" ≠ []
          decide
      rw [herr]
      simp [sameOriginAbs, Except.isOk, Except.toBool]
    | abs sd nd pd =>
      obtain ⟨hsd, hnd, hpd0, hpdc⟩ := hwd
      have hparsed : urlparse (UrlInput.abs sd nd pd).render =
          ⟨sd, nd, pd, [], []⟩ :=
        urlparse_mkUrl sd nd pd [] hsd hnd (slashLed_of_head hpd0) hpdc (by simp)
      by_cases hsame : so = sd ∧ no = nd
      · have hok : url_as_relative (UrlInput.abs sd nd pd).render
            (UrlInput.abs so no po).render = .ok (relativizePath pd po) := by
          rw [url_as_relative, hparseo, hparsed]
          rw [if_neg]
          push_neg
          exact ⟨hsame.1, hso, hsame.2⟩
        rw [hok]
        simp [sameOriginAbs, hsame, Except.isOk, Except.toBool]
      · have herr : url_as_relative (UrlInput.abs sd nd pd).render
            (UrlInput.abs so no po).render =
            .error (strOf "Cannot create a relative url from "
              ++ (UrlInput.abs so no po).render ++ strOf " to "
              ++ (UrlInput.abs sd nd pd).render) := by
          rw [url_as_relative, hparseo, hparsed]
          rw [if_pos]
          rcases not_and_or.mp hsame with h | h
          · exact Or.inl h
          · exact Or.inr (Or.inr h)
        rw [herr]
        simp [sameOriginAbs, hsame, Except.isOk, Except.toBool]

/-- Witness for `url_as_relative_error_iff`: absolute origin
`https://h/a/`, relative destination `../tensorflow`. -/
theorem url_as_relative_error_iff_witness :
    (url_as_relative (UrlInput.rel (strOf "../tensorflow")).render
        (UrlInput.abs (strOf "https") (strOf "h") (strOf "/a/")).render =
      .error (strOf "Cannot create a relative url from "
        ++ (UrlInput.abs (strOf "https") (strOf "h") (strOf "/a/")).render
        ++ strOf " to " ++ (UrlInput.rel (strOf "../tensorflow")).render)
      ↔ ¬sameOriginAbs (UrlInput.abs (strOf "https") (strOf "h") (strOf "/a/"))
          (UrlInput.rel (strOf "../tensorflow")))
    ∧ ((url_as_relative (UrlInput.rel (strOf "../tensorflow")).render
        (UrlInput.abs (strOf "https") (strOf "h") (strOf "/a/")).render).isOk
      ↔ sameOriginAbs (UrlInput.abs (strOf "https") (strOf "h") (strOf "/a/"))
          (UrlInput.rel (strOf "../tensorflow"))) :=
  url_as_relative_error_iff
    (UrlInput.abs (strOf "https") (strOf "h") (strOf "/a/"))
    (UrlInput.rel (strOf "../tensorflow")) (by decide) (by decide)

example : canonicalize_name (strOf "not_Normalized") = strOf "not-normalized" := by
  decide

example : canonicalize_name (strOf "My..Weird--Name") = strOf "my-weird-name" := by
  decide

example :
    canonicalize_name (canonicalize_name (strOf "My..Weird--Name"))
      = canonicalize_name (strOf "My..Weird--Name") := by decide

example :
    simple_project_page_guard (strOf "http") (strOf "testserver")
      (strOf "/simple/") (strOf "not_Normalized") []
    = .ok (.redirect 301 (strOf "../not-normalized/")) := by decide

example :
    simple_project_page_guard (strOf "http") (strOf "testserver")
      (strOf "/simple/") (strOf "not_Normalized") (strOf "format=x")
    = .ok (.redirect 301 (strOf "../not-normalized/?format=x")) := by decide

example :
    simple_project_page_guard (strOf "http") (strOf "testserver")
      (strOf "/simple/") (strOf "numpy") (strOf "format=x")
    = .ok (.lookup (strOf "numpy")) := by decide

theorem char_toNat_ofNat (n : Nat) (h : n.isValidChar) :
    (Char.ofNat n).toNat = n := by
  simp [Char.ofNat, Char.ofNatAux, Char.toNat, h, UInt32.toNat,
    BitVec.toNat_ofNatLt]

/-- `Char.toLower` never produces a character with code below 65 (such as
`/`, `?`, `#`) unless it was the input itself. -/
theorem toLower_ne_low {c d : Char} (hd : d.toNat < 65) (hne : c ≠ d) :
    c.toLower ≠ d := by
  simp only [Char.toLower]
  split
  · next hup =>
    intro hc
    have hvalid : (c.toNat + 32).isValidChar := Or.inl (by omega)
    have := congrArg Char.toNat hc
    rw [char_toNat_ofNat _ hvalid] at this
    omega
  · exact hne

theorem mem_collapseAux {c : Char} :
    ∀ {b : Bool} {l : Chars}, c ∈ collapseAux b l → c = '-' ∨ c ∈ l := by
  intro b l
  induction l generalizing b with
  | nil => simp [collapseAux]
  | cons a t ih =>
    intro h
    rw [collapseAux] at h
    by_cases hna : normChar a
    · rw [if_pos hna] at h
      cases b with
      | true =>
        rcases ih (by simpa using h) with h' | h'
        · exact Or.inl h'
        · exact Or.inr (by simp [h'])
      | false =>
        rcases List.mem_cons.mp (by simpa using h) with h' | h'
        · exact Or.inl h'
        · rcases ih h' with h'' | h''
          · exact Or.inl h''
          · exact Or.inr (by simp [h''])
    · rw [if_neg hna] at h
      rcases List.mem_cons.mp h with h' | h'
      · exact Or.inr (by simp [h'])
      · rcases ih h' with h'' | h''
        · exact Or.inl h''
        · exact Or.inr (by simp [h''])

/-- Canonicalization never introduces `/`, `?` or `#`. -/
theorem canonicalize_chars {name : Chars}
    (h : ∀ c ∈ name, c ≠ '/' ∧ c ≠ '?' ∧ c ≠ '#') :
    ∀ c ∈ canonicalize_name name, c ≠ '/' ∧ c ≠ '?' ∧ c ≠ '#' := by
  intro c hc
  rw [canonicalize_name, List.mem_map] at hc
  obtain ⟨c', hc', rfl⟩ := hc
  rcases mem_collapseAux hc' with h' | h'
  · subst h'
    refine ⟨by decide, by decide, by decide⟩
  · exact ⟨toLower_ne_low (by decide) (h c' h').1,
      toLower_ne_low (by decide) (h c' h').2.1,
      toLower_ne_low (by decide) (h c' h').2.2⟩

theorem commonPrefixLen_append_ne (A : List Chars) {x y : Chars} (h : x ≠ y) :
    commonPrefixLen (A ++ [x]) (A ++ [y]) = A.length := by
  induction A with
  | nil => simp [commonPrefixLen, h]
  | cons a t ih => simp [commonPrefixLen, ih]

theorem joinSlash_seg_slash (S : List Chars) (name : Chars) :
    joinSlash (S ++ [[]]) ++ (name ++ ['/']) = joinSlash ((S ++ [name]) ++ [[]]) := by
  induction S with
  | nil =>
    show joinSlash [[]] ++ (name ++ ['/']) = joinSlash [name, []]
    rw [joinSlash_cons name (by simp)]
    rfl
  | cons s S ih =>
    rw [List.cons_append, joinSlash_cons s (by simp), List.cons_append,
      List.cons_append, joinSlash_cons s (by simp), List.append_assoc]
    simp only [List.cons_append]
    rw [ih]

theorem pathOf_append_seg (pSegs : List Chars) (name : Chars) :
    pathOf pSegs [] ++ (name ++ ['/']) = pathOf (pSegs ++ [name]) [] := by
  show ('/' :: joinSlash (pSegs ++ [[]])) ++ (name ++ ['/']) = _
  rw [List.cons_append, joinSlash_seg_slash]
  rfl

/-- C8: on a project-detail request whose name is not canonical, the guard
skips the lookup and answers a 301 redirect to the relative canonical page
path `../{canonical}/`, with the original query string appended verbatim
when present. -/
theorem simple_project_page_redirects_noncanonical
    (scheme netloc name query : Chars) (pSegs : List Chars)
    (hs : scheme = strOf "http" ∨ scheme = strOf "https")
    (hn : ∀ c ∈ netloc, ¬netlocStop c)
    (hpS : ∀ s ∈ pSegs, ∀ c ∈ s, c ≠ '/' ∧ c ≠ '?' ∧ c ≠ '#')
    (hname : ∀ c ∈ name, c ≠ '/' ∧ c ≠ '?' ∧ c ≠ '#')
    (hq : ∀ c ∈ query, c ≠ '#')
    (hnc : canonicalize_name name ≠ name) :
    simple_project_page_guard scheme netloc (pathOf pSegs []) name query =
      .ok (.redirect 301
        ((strOf "../" ++ (canonicalize_name name ++ ['/']))
          ++ (if query = [] then [] else '?' :: query))) := by
  have hnormedc := canonicalize_chars hname
  have hOchars : ∀ c ∈ pathOf (pSegs ++ [name]) [], c ≠ '?' ∧ c ≠ '#' := by
    refine pathOf_forall (by decide) ?_ (by simp)
    intro s hs' c hc
    rcases List.mem_append.mp hs' with h | h
    · exact ⟨(hpS s h c hc).2.1, (hpS s h c hc).2.2⟩
    · rw [List.mem_singleton.mp h] at hc
      exact ⟨(hname c hc).2.1, (hname c hc).2.2⟩
  have hDchars : ∀ c ∈ pathOf (pSegs ++ [canonicalize_name name]) [],
      c ≠ '?' ∧ c ≠ '#' := by
    refine pathOf_forall (by decide) ?_ (by simp)
    intro s hs' c hc
    rcases List.mem_append.mp hs' with h | h
    · exact ⟨(hpS s h c hc).2.1, (hpS s h c hc).2.2⟩
    · rw [List.mem_singleton.mp h] at hc
      exact ⟨(hnormedc c hc).2.1, (hnormedc c hc).2.2⟩
  have hrel : relativizePath (pathOf (pSegs ++ [canonicalize_name name]) [])
      (pathOf (pSegs ++ [name]) []) =
        strOf "../" ++ (canonicalize_name name ++ ['/']) := by
    rw [relativizePath_pathOf (pSegs ++ [name]) (pSegs ++ [canonicalize_name name])
      [] []
      (fun s hs' => by
        rcases List.mem_append.mp hs' with h | h
        · exact fun hm => (hpS s h '/' hm).1 rfl
        · rw [List.mem_singleton.mp h]
          exact fun hm => (hname '/' hm).1 rfl)
      (fun s hs' => by
        rcases List.mem_append.mp hs' with h | h
        · exact fun hm => (hpS s h '/' hm).1 rfl
        · rw [List.mem_singleton.mp h]
          exact fun hm => (hnormedc '/' hm).1 rfl)
      (by simp) (by simp)]
    rw [commonPrefixLen_append_ne pSegs hnc]
    have hlen : (pSegs ++ [name]).length - pSegs.length = 1 := by simp
    have hdrop : ((pSegs ++ [canonicalize_name name]) ++ [[]]).drop pSegs.length
        = [canonicalize_name name, []] := by
      rw [List.append_assoc, List.drop_left]
      rfl
    rw [hlen, hdrop, List.replicate_one, List.singleton_append,
      joinSlash_cons (strOf "..") (by simp),
      joinSlash_cons (canonicalize_name name) (by simp)]
    rfl
  have hcall : url_as_relative
      (mkUrl scheme netloc (pathOf pSegs [] ++ (canonicalize_name name ++ ['/'])) [])
      (mkUrl scheme netloc (pathOf pSegs [] ++ (name ++ ['/'])) query) =
        .ok (strOf "../" ++ (canonicalize_name name ++ ['/'])) := by
    rw [pathOf_append_seg, pathOf_append_seg]
    rw [url_as_relative,
      urlparse_mkUrl scheme netloc (pathOf (pSegs ++ [canonicalize_name name]) [])
        [] hs hn (Or.inr ⟨_, rfl⟩) hDchars (by simp),
      urlparse_mkUrl scheme netloc (pathOf (pSegs ++ [name]) [])
        query hs hn (Or.inr ⟨_, rfl⟩) hOchars hq]
    rw [if_neg (by push_neg; exact ⟨rfl, hs, rfl⟩), hrel]
  simp only [simple_project_page_guard]
  rw [if_pos hnc, hcall]

/-- Witness for `simple_project_page_redirects_noncanonical` at
`/simple/not_Normalized/?a=b`. -/
theorem simple_project_page_redirects_noncanonical_witness :
    simple_project_page_guard (strOf "http") (strOf "testserver")
        (pathOf [strOf "simple"] []) (strOf "not_Normalized") (strOf "a=b") =
      .ok (.redirect 301
        ((strOf "../" ++ (canonicalize_name (strOf "not_Normalized") ++ ['/']))
          ++ (if strOf "a=b" = ([] : Chars) then [] else '?' :: strOf "a=b"))) :=
  simple_project_page_redirects_noncanonical (strOf "http") (strOf "testserver")
    (strOf "not_Normalized") (strOf "a=b") [strOf "simple"]
    (Or.inl rfl) (by decide) (by decide) (by decide) (by decide) (by decide)

/-- C1 (counterexample): an inbound `Cookie` header — whose lowercase name
is not in the allow-list — is nevertheless present in the RequestContext
passed to the backend's `get_resource`. -/
theorem request_context_forwards_all_headers_counterexample :
    (strOf "Cookie", strOf "secret")
        ∈ requestContextHeaders [(strOf "Cookie", strOf "secret")]
    ∧ toLowerStr (strOf "Cookie") ∉ PROXIED_REQUEST_HEADERS := by
  decide

/-- C1 (amended): the RequestContext passed to `get_resource` contains every
inbound header unchanged; the allow-list is applied only by the streaming
proxy iterator, which forwards to the upstream request exactly the inbound
headers whose lowercase name is in `PROXIED_REQUEST_HEADERS`. -/
theorem request_context_and_proxied_headers
    (headers : List (Chars × Chars)) (h : Chars × Chars) :
    (h ∈ requestContextHeaders headers ↔ h ∈ headers)
    ∧ (h ∈ proxiedHeaders headers ↔
        h ∈ headers ∧ toLowerStr h.1 ∈ PROXIED_REQUEST_HEADERS) := by
  constructor
  · exact Iff.rfl
  · rw [proxiedHeaders, List.mem_filter]
    simp

example :
    (sha256HexDigest (utf8Bytes (strOf "metadata"))).take 12
      = strOf "45447b7afbd5" := by decide

example : textEtag (strOf "metadata") = strOf "\x2245447b7afbd5\x22" := by
  decide

/-- C5: for a `TextResource`, the ETag is the quoted first 12 hex characters
of the SHA-256 of the UTF-8 text; a matching `If-None-Match` yields 304 with
the ETag header and no body, anything else yields 200 `text/plain` with the
text and the ETag header; for text `metadata` the hex prefix is
`45447b7afbd5`. -/
theorem text_resource_etag_dispatch :
    (∀ (stream : Bool) (up : UpstreamResp) (t : Chars) (inm : Option Chars),
      (inm = some (textEtag t) →
        dispatchResource stream (.text t) inm up
          = ⟨304, [(strOf "ETag", textEtag t)], none, .empty⟩)
      ∧ (inm ≠ some (textEtag t) →
        dispatchResource stream (.text t) inm up
          = ⟨200, [(strOf "ETag", textEtag t)], some (strOf "text/plain"),
              .text t⟩))
    ∧ textEtag (strOf "metadata") = '"' :: (strOf "45447b7afbd5" ++ ['"'])
    ∧ (sha256HexDigest (utf8Bytes (strOf "metadata"))).take 12
        = strOf "45447b7afbd5" := by
  refine ⟨?_, by decide, by decide⟩
  intro stream up t inm
  have hT : textEtag t
      = '"' :: ((sha256HexDigest (utf8Bytes t)).take 12 ++ ['"']) := rfl
  constructor
  · intro h
    subst h
    simp only [dispatchResource]
    rw [hT, if_pos rfl]
  · intro h
    simp only [dispatchResource]
    rw [if_neg (fun hc => h hc.symm)]
    rw [hT]

/-- Witness for `text_resource_etag_dispatch`: text `metadata` with a
matching `If-None-Match` gives 304 carrying the ETag. -/
theorem text_resource_etag_dispatch_witness :
    dispatchResource false (.text (strOf "metadata"))
        (some (textEtag (strOf "metadata"))) ⟨200, [], []⟩
      = ⟨304, [(strOf "ETag", textEtag (strOf "metadata"))], none, .empty⟩ :=
  (text_resource_etag_dispatch.1 false ⟨200, [], []⟩ (strOf "metadata")
    (some (textEtag (strOf "metadata")))).1 rfl

/-- C6: for a `LocalResource`, the context ETag is emitted verbatim exactly
when present (and, per the data-model invariant, nonempty); it equal to
`If-None-Match` gives 304 with that ETag header; otherwise the file is
served as `application/octet-stream`; with no context ETag the response is
200 for every `If-None-Match`. -/
theorem local_resource_etag_dispatch (stream : Bool) (up : UpstreamResp)
    (path : Chars) (ctxEtag inm : Option Chars)
    (hne : ∀ e, ctxEtag = some e → e ≠ []) :
    (ctxEtag = none →
      dispatchResource stream (.localFile path ctxEtag) inm up
        = ⟨200, [], some (strOf "application/octet-stream"), .file path⟩)
    ∧ (∀ e, ctxEtag = some e → inm = some e →
      dispatchResource stream (.localFile path ctxEtag) inm up
        = ⟨304, [(strOf "ETag", e)], none, .empty⟩)
    ∧ (∀ e, ctxEtag = some e → inm ≠ some e →
      dispatchResource stream (.localFile path ctxEtag) inm up
        = ⟨200, [(strOf "ETag", e)], some (strOf "application/octet-stream"),
            .file path⟩) := by
  refine ⟨?_, ?_, ?_⟩
  · intro h
    subst h
    cases inm <;> rfl
  · intro e he hi
    subst he
    subst hi
    simp [dispatchResource, hne e rfl]
  · intro e he hi
    subst he
    cases inm with
    | none => simp [dispatchResource, hne e rfl]
    | some ce =>
      have hce : ce ≠ e := fun hc => hi (by rw [hc])
      simp [dispatchResource, hne e rfl, hce]

/-- Witness for `local_resource_etag_dispatch`: a `LocalResource` with no
context ETag answers 200 even to a nonempty `If-None-Match`. -/
theorem local_resource_etag_dispatch_witness :
    dispatchResource false (.localFile (strOf "f") none)
        (some (strOf "anything")) ⟨200, [], []⟩
      = ⟨200, [], some (strOf "application/octet-stream"),
          .file (strOf "f")⟩ :=
  (local_resource_etag_dispatch false ⟨200, [], []⟩ (strOf "f") none
    (some (strOf "anything")) (by simp)).1 rfl

/-- C7: for an `HttpResource`, the redirect/stream choice is a function of
the static configuration only: in redirect mode the answer is 302 with
`Location` set to the resource URL, independent of the request's
`If-None-Match` and of anything the upstream would reply (no fetch); in
stream mode the upstream status, headers and body are mirrored verbatim —
in particular upstream `201` / `my-header: header` / body `b1b2b3`. -/
theorem http_resource_dispatch (url : Chars) :
    (∀ inm inm' up up',
      dispatchResource false (.http url) inm up
        = dispatchResource false (.http url) inm' up')
    ∧ (∀ inm up,
      dispatchResource false (.http url) inm up
        = ⟨302, [(strOf "location", url)], none, .empty⟩)
    ∧ (∀ inm up,
      dispatchResource true (.http url) inm up
        = ⟨up.status_code, up.headers, none, .stream up.chunks⟩)
    ∧ dispatchResource true (.http url) none
        ⟨201, [(strOf "my-header", strOf "header")],
          [utf8Bytes (strOf "b1b2b3")]⟩
      = ⟨201, [(strOf "my-header", strOf "header")], none,
          .stream [utf8Bytes (strOf "b1b2b3")]⟩ :=
  ⟨fun _ _ _ _ => rfl, fun _ _ => rfl, fun _ _ => rfl, rfl⟩

/-- C9: a supplied (nonempty) `format` override is used with its `+`
restored and the `Accept` header is ignored entirely; with no override the
`Accept` header is used; whenever the effective value is unsupported (the
selector fails) the result is HTTP 406; and the URL-decoded override
`application/vnd.pypi.simple.v1 json` is restored to
`application/vnd.pypi.simple.v1+json`. -/
theorem get_response_format_override (select : Chars → Except Chars Chars) :
    (∀ f accept accept', f ≠ [] →
      get_response_format select (some f) accept
        = get_response_format select (some f) accept')
    ∧ (∀ f accept, f ≠ [] →
      get_response_format select (some f) accept
        = match select (replaceChar ' ' '+' f) with
          | .ok fmt => .ok fmt
          | .error e => .error (406, e))
    ∧ (∀ accept,
      get_response_format select none (some accept)
        = match select accept with
          | .ok fmt => .ok fmt
          | .error e => .error (406, e))
    ∧ (∀ f accept e, f ≠ [] → select (replaceChar ' ' '+' f) = .error e →
      get_response_format select (some f) accept = .error (406, e))
    ∧ (∀ accept e, select accept = .error e →
      get_response_format select none (some accept) = .error (406, e))
    ∧ replaceChar ' ' '+' (strOf "application/vnd.pypi.simple.v1 json")
        = strOf "application/vnd.pypi.simple.v1+json" := by
  have hover : ∀ f : Chars, f ≠ [] → truthyOpt (some f) = true := by
    intro f hf
    simp [truthyOpt, hf]
  refine ⟨?_, ?_, ?_, ?_, ?_, by decide⟩
  · intro f accept accept' hf
    simp only [get_response_format, hover f hf, if_true]
  · intro f accept hf
    simp only [get_response_format, hover f hf, if_true, Option.getD]
  · intro accept
    simp only [get_response_format, truthyOpt, Bool.false_eq_true, if_false,
      Option.getD]
  · intro f accept e hf herr
    simp only [get_response_format, hover f hf, if_true, Option.getD, herr]
  · intro accept e herr
    simp only [get_response_format, truthyOpt, Bool.false_eq_true, if_false,
      Option.getD, herr]

/-- Witness for `get_response_format_override`: a selector accepting only
the JSON v1 media type, an override carrying it (with the `+` already
decoded to a space), and an unsupported `Accept` header. -/
theorem get_response_format_override_witness :
    get_response_format
        (fun s => if s = strOf "application/vnd.pypi.simple.v1+json"
          then .ok s else .error s)
        (some (strOf "application/vnd.pypi.simple.v1 json"))
        (some (strOf "pizza/margherita"))
      = get_response_format
        (fun s => if s = strOf "application/vnd.pypi.simple.v1+json"
          then .ok s else .error s)
        (some (strOf "application/vnd.pypi.simple.v1 json"))
        (some (strOf "text/html")) :=
  (get_response_format_override
    (fun s => if s = strOf "application/vnd.pypi.simple.v1+json"
      then .ok s else .error s)).1
    (strOf "application/vnd.pypi.simple.v1 json")
    (some (strOf "pizza/margherita")) (some (strOf "text/html")) (by decide)

/-- C10: `replace_urls` changes exactly the `url` of each file — the name
and remaining page fields are untouched, the number and order of files are
preserved, and each file keeps its filename, hashes and other fields while
its `url` becomes the computed resource URL for its filename. -/
theorem replace_urls_frame {α β : Type} (page : SProjectDetail α β)
    (project_name : Chars) (relUrlFor : Chars → Chars → Chars) :
    (replace_urls page project_name relUrlFor).name = page.name
    ∧ (replace_urls page project_name relUrlFor).meta = page.meta
    ∧ (replace_urls page project_name relUrlFor).files.length
        = page.files.length
    ∧ ∀ i : Nat, (replace_urls page project_name relUrlFor).files[i]?
        = (page.files[i]?).map (fun f =>
            { filename := f.filename, url := relUrlFor project_name f.filename,
              hashes := f.hashes, rest := f.rest }) := by
  refine ⟨rfl, rfl, by simp [replace_urls], ?_⟩
  intro i
  simp only [replace_urls, List.getElem?_map]

/-- C9 (counterexample): with the `format` query parameter supplied but
empty (`?format=`), the code falls back to the `Accept` header (Python
truthiness of `if format:`): with an accept-everything selector the
negotiated value is the `Accept` header's `text/html`, not the empty
override. -/
theorem get_response_format_empty_override_counterexample :
    get_response_format (fun s => .ok s) (some []) (some (strOf "text/html"))
        = .ok (strOf "text/html")
    ∧ (.ok (strOf "text/html") : Except (Nat × Chars) Chars)
        ≠ .ok ([] : Chars) := by
  decide
